import Mathlib

/-!
# Verification of `multiprocessing_fractal.py`

A shallow embedding of the program in
`src/python/05_multiprocessing_fractal/multiprocessing_fractal.py`:

* `complex_grids` — the grid partitioner (lines 9–26 of the source);
* `julia_set` — the escape-time kernel (lines 29–42);
* the driver's scatter/gather pipeline (lines 44–60).

Modelling conventions:

* IEEE-754 doubles are modelled as exact rationals `ℚ`; a complex value is a
  pair `Cx := ℚ × ℚ` of real and imaginary parts.  Rounding is not modelled,
  but overflow-to-non-finite is: a value whose squared magnitude reaches
  `MAXSQ = 2^2048` (the square of the IEEE double overflow threshold
  `2^1024`) is non-finite.  A running kernel state is `St := Option Cx`,
  `none` standing for a non-finite value (one holding an infinity or NaN
  component); complex arithmetic on a non-finite value yields a non-finite
  value, matching IEEE semantics for `z**2 + c` and `np.abs(z) < np.inf`.
* NumPy arrays are lists (`List` for 1-D, `List (List _)` for 2-D).
  `np.arange(start, stop, s)` has `max 0 ⌈(stop - start)/s⌉` elements,
  the k-th being `start + k*s`.
* `np.meshgrid(a, b)` (default indexing) returns `x, y` of shape
  `(b.length, a.length)` with `x[i][j] = a[j]` and `y[i][j] = b[i]`.
-/

/-- A complex number: real and imaginary part, as exact rationals. -/
abbrev Cx : Type := ℚ × ℚ

/-- Complex addition. -/
def cAdd (z w : Cx) : Cx := (z.1 + w.1, z.2 + w.2)

/-- Complex multiplication. -/
def cMul (z w : Cx) : Cx := (z.1 * w.1 - z.2 * w.2, z.1 * w.2 + z.2 * w.1)

/-- The square of the IEEE double overflow threshold `2^1024`: a complex
value whose squared magnitude reaches this bound has overflowed to a
non-finite value (`np.abs` of it is `inf`). -/
def MAXSQ : ℚ := 2 ^ 2048

/-- Whether a freshly computed complex value has overflowed to non-finite. -/
def overflows (w : Cx) : Prop := MAXSQ ≤ w.1 ^ 2 + w.2 ^ 2

instance overflowsDec : DecidablePred overflows := fun w =>
  inferInstanceAs (Decidable (MAXSQ ≤ w.1 ^ 2 + w.2 ^ 2))

/-- A kernel state for one grid point: `some z` when finite, `none` when the
value has become non-finite (holds an infinity or NaN component). -/
abbrev St : Type := Option Cx

/-- The finiteness mask `np.abs(z) < np.inf` of the kernel, per point. -/
def isFin (s : St) : Bool := s.isSome

/-- One update `z ← z**2 + c` of the kernel (source line 38) at one grid
point: a non-finite value stays non-finite; a finite value becomes
non-finite exactly when the update overflows. -/
def stepz (c : Cx) (s : St) : St :=
  s.bind (fun z =>
    let w := cAdd (cMul z z) c
    if overflows w then none else some w)

/-- The kernel loop (source lines 34–40) at one grid point: iterate
`(state, count)`; each iteration updates the state and increments the count
when the updated state is finite. -/
def juliaLoop (c : Cx) : ℕ → St × ℕ → St × ℕ
  | 0, sf => sf
  | n + 1, (s, f) =>
      let t := stepz c s
      juliaLoop c n (t, if isFin t then f + 1 else f)

/-- The running state after `n` updates, starting from input `z`. -/
def stateAfter (c : Cx) (n : ℕ) (z : St) : St := (juliaLoop c n (z, 0)).1

/-- The escape count of a single grid point after `n` iterations. -/
def juliaCount (c : Cx) (n : ℕ) (z : St) : ℕ := (juliaLoop c n (z, 0)).2

/-- One iteration of the kernel's loop body on the whole band
(source lines 36–40): update every point of the grid, then increment the
accumulator at every point whose updated value is finite. -/
def juliaBody (c : Cx) (gf : List (List St) × List (List ℕ)) :
    List (List St) × List (List ℕ) :=
  let g := gf.1.map (List.map (stepz c))
  (g, List.zipWith (List.zipWith (fun s x => if isFin s then x + 1 else x)) g gf.2)

/-- The kernel's loop, `num_iter` iterations over `(grid, fractal)`. -/
def juliaIter (c : Cx) : ℕ → List (List St) × List (List ℕ) →
    List (List St) × List (List ℕ)
  | 0, gf => gf
  | n + 1, gf => juliaIter c n (juliaBody c gf)

/-- The kernel `julia_set(grid, num_iter, c)` (source lines 29–42): start the fractal
accumulator at zeros of the grid's shape, run the loop, return the
accumulator. -/
def julia_set (grid : List (List St)) (num_iter : ℕ) (c : Cx) : List (List ℕ) :=
  (juliaIter c num_iter (grid, grid.map (fun row => row.map (fun _ => 0)))).2

/-- Number of elements of `np.arange(-extent, extent, 2*extent/n_cells)`
(source line 16): `max 0 ⌈(stop - start)/step⌉`. -/
def arangeLen (extent : ℚ) (n_cells : ℕ) : ℕ :=
  (⌈(extent - (-extent)) / (2 * extent / n_cells)⌉).toNat

/-- The coordinate sequence `mesh_range` of source line 16:
`np.arange(-extent, extent, 2*extent/n_cells)`. -/
def meshRange (extent : ℚ) (n_cells : ℕ) : List ℚ :=
  (List.range (arangeLen extent n_cells)).map
    (fun k : ℕ => -extent + (k : ℚ) * (2 * extent / n_cells))

/-- The partitioner `complex_grids(extent, n_cells, n_slices)` (source lines 9–26).
Slice `i` keeps rows `[n_cells*i / n_slices, n_cells*(i+1) / n_slices)` of
`mesh_range`; `np.meshgrid(mesh_range * 1j, mesh_range_slice)` followed by
`z = x + y` gives `z[a][b] = mesh_range_slice[a] + mesh_range[b]·1j`, so an
entry's real part comes from the slice and its imaginary part from the full
range. -/
def complex_grids (extent : ℚ) (n_cells n_slices : ℕ) : List (List (List Cx)) :=
  let mesh_range := meshRange extent n_cells
  (List.range n_slices).map (fun i_part =>
    let slice_lower := n_cells * i_part / n_slices
    let slice_upper := n_cells * (i_part + 1) / n_slices
    let mesh_range_slice := (mesh_range.drop slice_lower).take (slice_upper - slice_lower)
    mesh_range_slice.map (fun y => mesh_range.map (fun x => (y, x))))

/-- The full mesh built directly, without partitioning: what
`np.meshgrid(mesh_range * 1j, mesh_range)` with `z = x + y` would give over
the whole coordinate sequence. -/
def fullGrid (extent : ℚ) (n_cells : ℕ) : List (List Cx) :=
  (meshRange extent n_cells).map
    (fun y => (meshRange extent n_cells).map (fun x => (y, x)))

/-- The mesh the spec's words for C1 describe: real axis = full coordinate
sequence, imaginary axis = the row subset, combined as `x + i·y` — i.e.
`z[a][b] = mesh_range[b] + mesh_range_slice[a]·1j`.  Written from the
spec's sentence, to be compared with `complex_grids`. -/
def complex_grids_specC1 (extent : ℚ) (n_cells n_slices : ℕ) :
    List (List (List Cx)) :=
  let mesh_range := meshRange extent n_cells
  (List.range n_slices).map (fun i_part =>
    let slice_lower := n_cells * i_part / n_slices
    let slice_upper := n_cells * (i_part + 1) / n_slices
    let mesh_range_slice := (mesh_range.drop slice_lower).take (slice_upper - slice_lower)
    mesh_range_slice.map (fun y => mesh_range.map (fun x => (x, y))))

/-- Entry extraction from a 2-D array: row `i`, column `j`. -/
def ent (m : List (List α)) (i j : ℕ) : Option α :=
  (m[i]?).bind (fun row => row[j]?)

/-! ## Pointwise kernel lemmas -/

theorem stepz_none (c : Cx) : stepz c none = none := rfl

theorem juliaLoop_succ_left (c : Cx) (n : ℕ) (s : St) (f : ℕ) :
    juliaLoop c (n + 1) (s, f) =
      juliaLoop c n (stepz c s, if isFin (stepz c s) then f + 1 else f) := rfl

theorem juliaLoop_add (c : Cx) (m k : ℕ) (sf : St × ℕ) :
    juliaLoop c (m + k) sf = juliaLoop c k (juliaLoop c m sf) := by
  induction m generalizing sf with
  | zero => simp [juliaLoop]
  | succ m ih =>
      obtain ⟨s, f⟩ := sf
      have h : m + 1 + k = (m + k) + 1 := by omega
      rw [h, juliaLoop_succ_left, juliaLoop_succ_left, ih]

theorem stateAfter_succ (c : Cx) (n : ℕ) (z : St) :
    stateAfter c (n + 1) z = stepz c (stateAfter c n z) := by
  unfold stateAfter
  rw [juliaLoop_add c n 1]
  obtain ⟨s, f⟩ := juliaLoop c n (z, 0)
  simp [juliaLoop]

theorem juliaCount_succ (c : Cx) (n : ℕ) (z : St) :
    juliaCount c (n + 1) z =
      juliaCount c n z + (if isFin (stateAfter c (n + 1) z) then 1 else 0) := by
  unfold juliaCount stateAfter
  rw [juliaLoop_add c n 1]
  obtain ⟨s, f⟩ := juliaLoop c n (z, 0)
  by_cases h : isFin (stepz c s) <;> simp [juliaLoop, h]

theorem juliaCount_le (c : Cx) (n : ℕ) (z : St) : juliaCount c n z ≤ n := by
  induction n with
  | zero => simp [juliaCount, juliaLoop]
  | succ n ih =>
      rw [juliaCount_succ]
      by_cases h : isFin (stateAfter c (n + 1) z) <;> simp [h] <;> omega

theorem juliaCount_le_succ (c : Cx) (n : ℕ) (z : St) :
    juliaCount c n z ≤ juliaCount c (n + 1) z := by
  rw [juliaCount_succ]; omega

theorem juliaCount_eq_iff (c : Cx) (n : ℕ) (z : St) :
    juliaCount c n z = n ↔
      ∀ t, 1 ≤ t → t ≤ n → isFin (stateAfter c t z) = true := by
  induction n with
  | zero => simp [juliaCount, juliaLoop]; omega
  | succ n ih =>
      rw [juliaCount_succ]
      constructor
      · intro h t h1 htn
        have hle := juliaCount_le c n z
        by_cases hf : isFin (stateAfter c (n + 1) z)
        · rcases Nat.lt_or_ge t (n + 1) with hlt | hge
          · rw [if_pos hf] at h
            exact (ih.mp (by omega)) t h1 (by omega)
          · have : t = n + 1 := by omega
            rw [this]; exact hf
        · rw [if_neg hf] at h; omega
      · intro h
        have hf : isFin (stateAfter c (n + 1) z) = true := h (n + 1) (by omega) (le_refl _)
        have hc : juliaCount c n z = n := ih.mpr (fun t h1 htn => h t h1 (by omega))
        simp [hf, hc]

theorem stateAfter_none_of_none (c : Cx) (j k : ℕ) (z : St) (hjk : j ≤ k)
    (hj : isFin (stateAfter c j z) = false) : isFin (stateAfter c k z) = false := by
  induction k, hjk using Nat.le_induction with
  | base => exact hj
  | succ k hks ih =>
      rw [stateAfter_succ]
      have : stateAfter c k z = none := by
        cases h : stateAfter c k z with
        | none => rfl
        | some w => rw [h] at ih; simp [isFin] at ih
      rw [this, stepz_none]; rfl

theorem juliaCount_frozen_of_none (c : Cx) (j k : ℕ) (z : St) (hjk : j ≤ k)
    (hj : isFin (stateAfter c j z) = false) : juliaCount c k z = juliaCount c j z := by
  induction k, hjk using Nat.le_induction with
  | base => rfl
  | succ k hks ih =>
      have hk : isFin (stateAfter c (k + 1) z) = false :=
        stateAfter_none_of_none c j (k + 1) z (by omega) hj
      rw [juliaCount_succ, hk, ih]; simp

/-! ## Entry lemmas for the array-level kernel -/

theorem getElem_opt_zipWith (k : α → β → γ) (a : List α) (b : List β) (i : ℕ) :
    (List.zipWith k a b)[i]? = (a[i]?).bind (fun x => (b[i]?).map (fun y => k x y)) := by
  induction a generalizing b i with
  | nil => simp
  | cons x xs ih =>
      cases b with
      | nil => simp
      | cons y ys =>
          cases i with
          | zero => simp
          | succ n => simpa using ih ys n

theorem ent_map (φ : α → β) (m : List (List α)) (i j : ℕ) :
    ent (m.map (List.map φ)) i j = (ent m i j).map φ := by
  unfold ent
  rw [List.getElem?_map]
  cases m[i]? with
  | none => rfl
  | some row => simp

theorem ent_zipWith (k : α → β → γ) (A : List (List α)) (B : List (List β)) (i j : ℕ) :
    ent (List.zipWith (List.zipWith k) A B) i j =
      (ent A i j).bind (fun a => (ent B i j).map (fun b => k a b)) := by
  unfold ent
  rw [getElem_opt_zipWith]
  cases A[i]? with
  | none => rfl
  | some ra =>
      cases B[i]? with
      | none => simp
      | some rb => simp [getElem_opt_zipWith]

theorem juliaIter_ent (c : Cx) (n : ℕ) (g : List (List St)) (f : List (List ℕ))
    (i j : ℕ) (z : St) (x : ℕ) (hg : ent g i j = some z) (hf : ent f i j = some x) :
    ent ((juliaIter c n (g, f)).2) i j = some ((juliaLoop c n (z, x)).2) := by
  induction n generalizing g f z x with
  | zero => simpa [juliaIter, juliaLoop] using hf
  | succ n ih =>
      have hg' : ent (g.map (List.map (stepz c))) i j = some (stepz c z) := by
        rw [ent_map, hg]; rfl
      have hf' : ent (List.zipWith
          (List.zipWith (fun s x => if isFin s then x + 1 else x))
          (g.map (List.map (stepz c))) f) i j =
          some (if isFin (stepz c z) then x + 1 else x) := by
        rw [ent_zipWith, hg', hf]; rfl
      have := ih _ _ _ _ hg' hf'
      simpa [juliaIter, juliaBody, juliaLoop] using this

theorem julia_set_ent (grid : List (List St)) (n : ℕ) (c : Cx) (i j : ℕ) (z : St)
    (h : ent grid i j = some z) :
    ent (julia_set grid n c) i j = some (juliaCount c n z) := by
  have h0 : ent (grid.map (List.map (fun _ => (0 : ℕ)))) i j = some 0 := by
    rw [ent_map, h]; rfl
  exact juliaIter_ent c n grid _ i j z 0 h h0

theorem juliaCount_mono (c : Cx) (z : St) {m n : ℕ} (h : m ≤ n) :
    juliaCount c m z ≤ juliaCount c n z := by
  induction n, h using Nat.le_induction with
  | base => exact le_refl _
  | succ n hmn ih => exact le_trans ih (juliaCount_le_succ c n z)

theorem juliaCount_one (c : Cx) (z : St) :
    juliaCount c 1 z = if isFin (stepz c z) then 1 else 0 := by
  by_cases h : isFin (stepz c z) <;> simp [juliaCount, juliaLoop, h]

/-! ## Claims C4–C7: the escape-time kernel -/

/-- C4: every entry of the array returned by `julia_set(grid, num_iter, c)`
lies in the closed interval `[0, num_iter]`, and the value `num_iter` is
attained exactly at the positions whose running state is still finite after
every one of the `num_iter` updates (the points that never diverged). -/
theorem julia_set_bounded (grid : List (List St)) (n : ℕ) (c : Cx) (i j : ℕ)
    (z : St) (v : ℕ) (hz : ent grid i j = some z)
    (hv : ent (julia_set grid n c) i j = some v) :
    0 ≤ v ∧ v ≤ n ∧
      (v = n ↔ ∀ t, 1 ≤ t → t ≤ n → isFin (stateAfter c t z) = true) := by
  have h := julia_set_ent grid n c i j z hz
  rw [hv] at h
  obtain rfl : v = juliaCount c n z := Option.some.inj h
  exact ⟨Nat.zero_le _, juliaCount_le c n z, juliaCount_eq_iff c n z⟩

/-- Witness for C4 at the concrete input `grid = [[0]]`, `num_iter = 2`,
`c = 0`: the entry is present and the bound holds there. -/
theorem julia_set_bounded_witness :
    ent [[some ((0:ℚ), (0:ℚ))]] 0 0 = some (some ((0:ℚ), (0:ℚ))) ∧
    ent (julia_set [[some ((0:ℚ), (0:ℚ))]] 2 ((0:ℚ), (0:ℚ))) 0 0 = some 2 ∧
    (0 ≤ 2 ∧ 2 ≤ 2 ∧
      (2 = 2 ↔ ∀ t, 1 ≤ t → t ≤ 2 →
        isFin (stateAfter ((0:ℚ), (0:ℚ)) t (some ((0:ℚ), (0:ℚ)))) = true)) :=
  ⟨by norm_num [ent],
   by norm_num [ent, julia_set, juliaIter, juliaBody, stepz, overflows, MAXSQ,
     isFin, cAdd, cMul],
   julia_set_bounded [[some ((0:ℚ), (0:ℚ))]] 2 ((0:ℚ), (0:ℚ)) 0 0
     (some ((0:ℚ), (0:ℚ))) 2 (by norm_num [ent])
     (by norm_num [ent, julia_set, juliaIter, juliaBody, stepz, overflows,
       MAXSQ, isFin, cAdd, cMul])⟩

/-- C5: once the running state at a grid point is non-finite at some
iteration `j`, it remains non-finite at every later iteration `k`, and the
accumulator entry is never incremented after `j`: the escape count at `k`
still equals the escape count at `j`. -/
theorem julia_exclusion_monotonic (c : Cx) (z : St) (j k : ℕ) (hjk : j ≤ k)
    (hj : isFin (stateAfter c j z) = false) :
    isFin (stateAfter c k z) = false ∧ juliaCount c k z = juliaCount c j z :=
  ⟨stateAfter_none_of_none c j k z hjk hj,
   juliaCount_frozen_of_none c j k z hjk hj⟩

/-- Witness for C5 at the concrete input `z = non-finite`, `j = 0`,
`k = 2`. -/
theorem julia_exclusion_monotonic_witness :
    (0:ℕ) ≤ 2 ∧ isFin (stateAfter ((0:ℚ), (0:ℚ)) 0 none) = false ∧
    (isFin (stateAfter ((0:ℚ), (0:ℚ)) 2 none) = false ∧
      juliaCount ((0:ℚ), (0:ℚ)) 2 none = juliaCount ((0:ℚ), (0:ℚ)) 0 none) :=
  ⟨by norm_num, rfl,
   julia_exclusion_monotonic ((0:ℚ), (0:ℚ)) none 0 2 (by norm_num) rfl⟩

/-- C6 counterexample: the input `2^1100` is a finite value, `num_iter = 1`,
yet the kernel returns `0` at that position — the first update `z² + c`
overflows before the first increment check, so an output of `0` does not
require a non-finite input. -/
theorem julia_set_zero_at_finite_input :
    isFin (some ((2:ℚ) ^ 1100, (0:ℚ))) = true ∧
    ent (julia_set [[some ((2:ℚ) ^ 1100, (0:ℚ))]] 1 ((0:ℚ), (0:ℚ))) 0 0 =
      some 0 ∧ ¬ (1:ℕ) ≤ 0 :=
  ⟨rfl,
   by norm_num [ent, julia_set, juliaIter, juliaBody, stepz, overflows, MAXSQ,
     isFin, cAdd, cMul],
   by norm_num⟩

/-- C6 amended: for `num_iter ≥ 1`, the output of `julia_set` at a position
is at least 1 exactly when the first update `z² + c` of that position's
value is still finite; an output of 0 occurs exactly when the input is
non-finite or its first update overflows. -/
theorem julia_set_first_update (grid : List (List St)) (n : ℕ) (c : Cx)
    (i j : ℕ) (z : St) (v : ℕ) (hn : 1 ≤ n) (hz : ent grid i j = some z)
    (hv : ent (julia_set grid n c) i j = some v) :
    1 ≤ v ↔ isFin (stepz c z) = true := by
  have h := julia_set_ent grid n c i j z hz
  rw [hv] at h
  obtain rfl : v = juliaCount c n z := Option.some.inj h
  have h1 : stateAfter c 1 z = stepz c z := rfl
  constructor
  · intro hge
    by_contra hf
    have hf' : isFin (stateAfter c 1 z) = false := by
      rw [h1]; exact Bool.not_eq_true _ ▸ (Bool.eq_false_iff.mpr hf)
    have hfrozen := juliaCount_frozen_of_none c 1 n z hn hf'
    rw [hfrozen, juliaCount_one] at hge
    rw [h1] at hf'
    rw [hf'] at hge
    simp at hge
  · intro hf
    have : juliaCount c 1 z = 1 := by rw [juliaCount_one, hf]; rfl
    calc 1 = juliaCount c 1 z := this.symm
    _ ≤ juliaCount c n z := juliaCount_mono c z hn

/-- Witness for the amended C6 at `grid = [[0]]`, `num_iter = 1`,
`c = 0`. -/
theorem julia_set_first_update_witness :
    (1:ℕ) ≤ 1 ∧ ent [[some ((0:ℚ), (0:ℚ))]] 0 0 = some (some ((0:ℚ), (0:ℚ))) ∧
    ent (julia_set [[some ((0:ℚ), (0:ℚ))]] 1 ((0:ℚ), (0:ℚ))) 0 0 = some 1 ∧
    (1 ≤ 1 ↔ isFin (stepz ((0:ℚ), (0:ℚ)) (some ((0:ℚ), (0:ℚ)))) = true) :=
  ⟨le_refl 1, by norm_num [ent],
   by norm_num [ent, julia_set, juliaIter, juliaBody, stepz, overflows, MAXSQ,
     isFin, cAdd, cMul],
   julia_set_first_update [[some ((0:ℚ), (0:ℚ))]] 1 ((0:ℚ), (0:ℚ)) 0 0
     (some ((0:ℚ), (0:ℚ))) 1 (le_refl 1) (by norm_num [ent])
     (by norm_num [ent, julia_set, juliaIter, juliaBody, stepz, overflows,
       MAXSQ, isFin, cAdd, cMul])⟩

/-- C7: for a fixed grid position and constant, the escape count returned by
`julia_set` is non-decreasing as `num_iter` increases. -/
theorem julia_set_count_monotone (grid : List (List St)) (m n : ℕ) (c : Cx)
    (i j : ℕ) (z : St) (vm vn : ℕ) (hmn : m ≤ n) (hz : ent grid i j = some z)
    (hm : ent (julia_set grid m c) i j = some vm)
    (hvn : ent (julia_set grid n c) i j = some vn) : vm ≤ vn := by
  have h1 := julia_set_ent grid m c i j z hz
  have h2 := julia_set_ent grid n c i j z hz
  rw [hm] at h1; rw [hvn] at h2
  obtain rfl : vm = juliaCount c m z := Option.some.inj h1
  obtain rfl : vn = juliaCount c n z := Option.some.inj h2
  exact juliaCount_mono c z hmn

/-- Witness for C7 at `grid = [[0]]`, `m = 1`, `n = 3`, `c = 0`. -/
theorem julia_set_count_monotone_witness :
    (1:ℕ) ≤ 3 ∧ ent [[some ((0:ℚ), (0:ℚ))]] 0 0 = some (some ((0:ℚ), (0:ℚ))) ∧
    ent (julia_set [[some ((0:ℚ), (0:ℚ))]] 1 ((0:ℚ), (0:ℚ))) 0 0 = some 1 ∧
    ent (julia_set [[some ((0:ℚ), (0:ℚ))]] 3 ((0:ℚ), (0:ℚ))) 0 0 = some 3 ∧
    (1:ℕ) ≤ 3 :=
  ⟨by norm_num, by norm_num [ent],
   by norm_num [ent, julia_set, juliaIter, juliaBody, stepz, overflows, MAXSQ,
     isFin, cAdd, cMul],
   by norm_num [ent, julia_set, juliaIter, juliaBody, stepz, overflows, MAXSQ,
     isFin, cAdd, cMul],
   julia_set_count_monotone [[some ((0:ℚ), (0:ℚ))]] 1 3 ((0:ℚ), (0:ℚ)) 0 0
     (some ((0:ℚ), (0:ℚ))) 1 3 (by norm_num) (by norm_num [ent])
     (by norm_num [ent, julia_set, juliaIter, juliaBody, stepz, overflows,
       MAXSQ, isFin, cAdd, cMul])
     (by norm_num [ent, julia_set, juliaIter, juliaBody, stepz, overflows,
       MAXSQ, isFin, cAdd, cMul])⟩

/-! ## Partitioner lemmas -/

theorem arangeLen_eq (e : ℚ) (n : ℕ) (he : 0 < e) (hn : 0 < n) :
    arangeLen e n = n := by
  unfold arangeLen
  have hn' : (n : ℚ) ≠ 0 := Nat.cast_ne_zero.mpr hn.ne'
  have he' : (2 * e) ≠ 0 := by positivity
  have h1 : e - (-e) = 2 * e := by ring
  have h2 : (2 * e) / (2 * e / n) = (n : ℚ) := by
    rw [div_div_eq_mul_div, mul_comm, mul_div_assoc, div_self he', mul_one]
  rw [h1, h2, Int.ceil_natCast, Int.toNat_natCast]

theorem meshRange_length (e : ℚ) (n : ℕ) (he : 0 < e) (hn : 0 < n) :
    (meshRange e n).length = n := by
  unfold meshRange
  rw [List.length_map, List.length_range, arangeLen_eq e n he hn]

theorem meshRange_getElem_opt (e : ℚ) (n k : ℕ) (he : 0 < e) (hn : 0 < n)
    (hk : k < n) : (meshRange e n)[k]? = some (-e + k * (2 * e / n)) := by
  unfold meshRange
  rw [List.getElem?_map, List.getElem?_range (by rwa [arangeLen_eq e n he hn])]
  rfl

theorem div_boundary_mono (n s i : ℕ) : n * i / s ≤ n * (i + 1) / s :=
  Nat.div_le_div_right (Nat.mul_le_mul_left n (by omega))

theorem div_boundary_last (n s : ℕ) (hs : 0 < s) : n * s / s = n :=
  Nat.mul_div_cancel n hs

theorem band_size (n s i : ℕ) (hs : 0 < s) :
    n * (i + 1) / s - n * i / s = n / s ∨
      n * (i + 1) / s - n * i / s = n / s + 1 := by
  have hmod := Nat.div_add_mod n s
  have hr : n % s < s := Nat.mod_lt _ hs
  have key : n * (i + 1) = (n * i + n % s) + (n / s) * s := by
    calc n * (i + 1) = n * i + n := by ring
    _ = n * i + (s * (n / s) + n % s) := by rw [hmod]
    _ = (n * i + n % s) + (n / s) * s := by ring
  have h1 : n * (i + 1) / s = (n * i + n % s) / s + n / s := by
    rw [key]; exact Nat.add_mul_div_right _ _ hs
  have h2 : n * i / s ≤ (n * i + n % s) / s := Nat.div_le_div_right (by omega)
  have h3 : (n * i + n % s) / s ≤ n * i / s + 1 := by
    calc (n * i + n % s) / s ≤ (n * i + s) / s := Nat.div_le_div_right (by omega)
    _ = n * i / s + 1 := Nat.add_div_right _ hs
  clear key hmod
  rw [h1]
  revert h2 h3
  generalize (n * i + n % s) / s = A
  generalize n * i / s = B
  generalize n / s = Q
  intro h2 h3
  omega

theorem sum_band_sizes (n s : ℕ) (hs : 0 < s) :
    (∑ i in Finset.range s, (n * (i + 1) / s - n * i / s)) = n := by
  have hm : ∀ m, (∑ i in Finset.range m, (n * (i + 1) / s - n * i / s)) =
      n * m / s := by
    intro m
    induction m with
    | zero => simp
    | succ m ih =>
        rw [Finset.sum_range_succ, ih]
        have := div_boundary_mono n s m
        omega
  rw [hm s, div_boundary_last n s hs]

theorem complex_grids_getElem (e : ℚ) (n s i : ℕ) (hi : i < s) :
    (complex_grids e n s)[i]? =
      some ((((meshRange e n).drop (n * i / s)).take
          (n * (i + 1) / s - n * i / s)).map
        (fun y => (meshRange e n).map (fun x => (y, x)))) := by
  unfold complex_grids
  rw [List.getElem?_map, List.getElem?_range hi]
  rfl

theorem flatten_slices (L : List α) (f : ℕ → ℕ) (hmono : ∀ i, f i ≤ f (i + 1))
    (h0 : f 0 = 0) (s : ℕ) :
    ((List.range s).map (fun i => (L.drop (f i)).take (f (i + 1) - f i))).flatten =
      L.take (f s) := by
  induction s with
  | zero => simp [h0]
  | succ s ih =>
      rw [List.range_succ, List.map_append, List.flatten_append, ih]
      have h : f (s + 1) = f s + (f (s + 1) - f s) := by
        have := hmono s; omega
      conv_rhs => rw [h, List.take_add]
      simp

theorem complex_grids_band_length (e : ℚ) (n s i : ℕ) (he : 0 < e)
    (hn : 0 < n) (hs : 0 < s) (hi : i < s) :
    ((complex_grids e n s)[i]?.getD []).length =
      n * (i + 1) / s - n * i / s := by
  rw [complex_grids_getElem e n s i hi, Option.getD_some]
  rw [List.length_map, List.length_take, List.length_drop,
    meshRange_length e n he hn]
  have hu : n * (i + 1) / s ≤ n := by
    calc n * (i + 1) / s ≤ n * s / s :=
      Nat.div_le_div_right (Nat.mul_le_mul_left n (by omega))
    _ = n := div_boundary_last n s hs
  have hm := div_boundary_mono n s i
  revert hu hm
  generalize n * (i + 1) / s = u
  generalize n * i / s = l
  intro hu hm
  omega

/-! ## Claims C1–C3, C9: the grid partitioner -/

/-- C9: for positive `extent` and `n_cells`, the coordinate sequence built
by `complex_grids` via `np.arange(-extent, extent, 2·extent/n_cells)` has
length exactly `n_cells`, its `k`-th element is
`-extent + k·(2·extent/n_cells)` (even spacing), and every element lies in
`[-extent, extent)`, the endpoint `extent` excluded. -/
theorem meshRange_spec (e : ℚ) (n : ℕ) (he : 0 < e) (hn : 0 < n) :
    (meshRange e n).length = n ∧
    (∀ k, k < n → (meshRange e n)[k]? = some (-e + (k : ℚ) * (2 * e / n))) ∧
    (∀ v, v ∈ meshRange e n → -e ≤ v ∧ v < e) := by
  have hnQ : (0 : ℚ) < n := by exact_mod_cast hn
  refine ⟨meshRange_length e n he hn,
    fun k hk => meshRange_getElem_opt e n k he hn hk, fun v hv => ?_⟩
  unfold meshRange at hv
  obtain ⟨k, hkmem, rfl⟩ := List.mem_map.mp hv
  have hk : k < n := by
    rw [List.mem_range, arangeLen_eq e n he hn] at hkmem
    exact hkmem
  have hstep : 0 < 2 * e / n := by positivity
  constructor
  · have : 0 ≤ (k : ℚ) * (2 * e / n) := by positivity
    linarith
  · have hkn : (k : ℚ) < n := by exact_mod_cast hk
    have hmul : (k : ℚ) * (2 * e / n) < n * (2 * e / n) :=
      mul_lt_mul_of_pos_right hkn hstep
    have hne : (n : ℚ) * (2 * e / n) = 2 * e := by
      field_simp
    linarith

/-- Witness for C9 at `extent = 1`, `n_cells = 2`. -/
theorem meshRange_spec_witness :
    (0 : ℚ) < 1 ∧ 0 < 2 ∧
    ((meshRange 1 2).length = 2 ∧
      (∀ k : ℕ, k < 2 →
        (meshRange 1 2)[k]? = some (-1 + (k : ℚ) * (2 * 1 / ((2 : ℕ) : ℚ)))) ∧
      (∀ v, v ∈ meshRange 1 2 → -1 ≤ v ∧ v < 1)) :=
  ⟨by norm_num, by norm_num, meshRange_spec 1 2 (by norm_num) (by norm_num)⟩

/-- C2: for all valid inputs, concatenating the mesh bands returned by
`complex_grids` in slice order yields, row for row and value for value,
exactly the full mesh built directly without partitioning. -/
theorem complex_grids_flatten (e : ℚ) (n s : ℕ) (he : 0 < e) (hn : 0 < n)
    (hs : 0 < s) (hsn : s ≤ n) :
    (complex_grids e n s).flatten = fullGrid e n := by
  have hdecomp : complex_grids e n s =
      ((List.range s).map
        (fun i => ((meshRange e n).drop (n * i / s)).take
          (n * (i + 1) / s - n * i / s))).map
        (List.map (fun y => (meshRange e n).map (fun x => (y, x)))) := by
    unfold complex_grids
    rw [List.map_map]
    rfl
  rw [hdecomp, ← List.map_flatten,
    flatten_slices _ _ (fun i => div_boundary_mono n s i) (by simp) s,
    div_boundary_last n s hs,
    List.take_of_length_le (le_of_eq (meshRange_length e n he hn))]
  rfl

/-- Witness for C2 at `extent = 2`, `n_cells = 4`, `n_slices = 2`. -/
theorem complex_grids_flatten_witness :
    (0 : ℚ) < 2 ∧ 0 < 4 ∧ 0 < 2 ∧ 2 ≤ 4 ∧
    (complex_grids 2 4 2).flatten = fullGrid 2 4 :=
  ⟨by norm_num, by norm_num, by norm_num, by norm_num,
   complex_grids_flatten 2 4 2 (by norm_num) (by norm_num) (by norm_num)
     (by norm_num)⟩

/-- C3: the integer-division slice boundaries `⌊n_cells·i/n_slices⌋ ..
⌊n_cells·(i+1)/n_slices⌋` used by `complex_grids` give bands whose row
counts sum to exactly `n_cells`, each band having `⌊n_cells/n_slices⌋` or
`⌊n_cells/n_slices⌋ + 1` rows; the boundaries are monotone and run from row
0 to row `n_cells`, and band `i`'s upper boundary is band `i+1`'s lower
boundary (both are `⌊n_cells·(i+1)/n_slices⌋`), so bands neither overlap
nor leave a gap. -/
theorem complex_grids_row_counts (e : ℚ) (n s : ℕ) (he : 0 < e) (hn : 0 < n)
    (hs : 0 < s) (hsn : s ≤ n) :
    (∀ i, i < s → ((complex_grids e n s)[i]?.getD []).length =
      n * (i + 1) / s - n * i / s) ∧
    (∑ i in Finset.range s, ((complex_grids e n s)[i]?.getD []).length) = n ∧
    (∀ i, i < s → ((complex_grids e n s)[i]?.getD []).length = n / s ∨
      ((complex_grids e n s)[i]?.getD []).length = n / s + 1) ∧
    (∀ i, n * i / s ≤ n * (i + 1) / s) ∧ n * 0 / s = 0 ∧ n * s / s = n := by
  refine ⟨fun i hi => complex_grids_band_length e n s i he hn hs hi, ?_,
    fun i hi => ?_, fun i => div_boundary_mono n s i, by simp,
    div_boundary_last n s hs⟩
  · rw [Finset.sum_congr rfl
      (fun i hi => complex_grids_band_length e n s i he hn hs
        (Finset.mem_range.mp hi))]
    exact sum_band_sizes n s hs
  · rw [complex_grids_band_length e n s i he hn hs hi]
    exact band_size n s i hs

/-- Witness for C3 at `extent = 1`, `n_cells = 5`, `n_slices = 3` (uneven
split: band sizes 1, 2, 2). -/
theorem complex_grids_row_counts_witness :
    (0 : ℚ) < 1 ∧ 0 < 5 ∧ 0 < 3 ∧ 3 ≤ 5 ∧
    ((∀ i, i < 3 → ((complex_grids 1 5 3)[i]?.getD []).length =
      5 * (i + 1) / 3 - 5 * i / 3) ∧
    (∑ i in Finset.range 3, ((complex_grids 1 5 3)[i]?.getD []).length) = 5 ∧
    (∀ i, i < 3 → ((complex_grids 1 5 3)[i]?.getD []).length = 5 / 3 ∨
      ((complex_grids 1 5 3)[i]?.getD []).length = 5 / 3 + 1) ∧
    (∀ i, 5 * i / 3 ≤ 5 * (i + 1) / 3) ∧ 5 * 0 / 3 = 0 ∧ 5 * 3 / 3 = 5) :=
  ⟨by norm_num, by norm_num, by norm_num, by norm_num,
   complex_grids_row_counts 1 5 3 (by norm_num) (by norm_num) (by norm_num)
     (by norm_num)⟩

/-- C1 counterexample: at `extent = 1`, `n_cells = 2`, `n_slices = 1`, the
band produced by `complex_grids` is not the mesh the claim describes
(real axis = full sequence, imaginary axis = row subset): the code passes
`mesh_range * 1j` as the first meshgrid argument, so the full sequence lands
on the imaginary axis and the row subset on the real axis. -/
theorem complex_grids_axes_cex :
    complex_grids 1 2 1 ≠ complex_grids_specC1 1 2 1 := by
  have harange : arangeLen 1 2 = 2 :=
    arangeLen_eq 1 2 (by norm_num) (by norm_num)
  have h1 : complex_grids 1 2 1 =
      [[[(-1, -1), (-1, 0)], [(0, -1), (0, 0)]]] := by
    norm_num [complex_grids, meshRange, harange, List.range_succ,
      List.range_zero]
  have h2 : complex_grids_specC1 1 2 1 =
      [[[(-1, -1), (0, -1)], [(-1, 0), (0, 0)]]] := by
    norm_num [complex_grids_specC1, meshRange, harange, List.range_succ,
      List.range_zero]
  rw [h1, h2]
  intro h
  norm_num at h

/-- C1 amended: each entry of the band for slice `i` at row `a`, column `b`
is `mesh_range_slice[a] + mesh_range[b]·1j`: the REAL axis holds the row
subset of `r` for the slice and the IMAGINARY axis holds the full
coordinate sequence `r`, so each row of the band holds one real value
paired with all imaginary values. -/
theorem complex_grids_entry (e : ℚ) (n s i a b : ℕ) (he : 0 < e) (hn : 0 < n)
    (hs : 0 < s) (hi : i < s) (ha : a < n * (i + 1) / s - n * i / s)
    (hb : b < n) :
    ent ((complex_grids e n s)[i]?.getD []) a b =
      some (-e + ((n * i / s + a : ℕ) : ℚ) * (2 * e / n),
            -e + (b : ℚ) * (2 * e / n)) := by
  rw [complex_grids_getElem e n s i hi, Option.getD_some]
  unfold ent
  rw [List.getElem?_map, List.getElem?_take, if_pos ha, List.getElem?_drop]
  have hu : n * (i + 1) / s ≤ n := by
    calc n * (i + 1) / s ≤ n * s / s :=
      Nat.div_le_div_right (Nat.mul_le_mul_left n (by omega))
    _ = n := div_boundary_last n s hs
  have hrow : n * i / s + a < n := by
    have hm := div_boundary_mono n s i
    revert ha hu hm
    generalize n * (i + 1) / s = u
    generalize n * i / s = l
    intro ha hu hm
    omega
  rw [meshRange_getElem_opt e n _ he hn hrow]
  simp only [Option.map_some', Option.some_bind]
  rw [List.getElem?_map, meshRange_getElem_opt e n b he hn hb]
  rfl

/-- Witness for the amended C1 at `extent = 1`, `n_cells = 2`,
`n_slices = 1`, entry `(0, 1)` of band 0. -/
theorem complex_grids_entry_witness :
    (0 : ℚ) < 1 ∧ (0 : ℕ) < 2 ∧ (0 : ℕ) < 1 ∧ (0 : ℕ) < 1 ∧
    (0 : ℕ) < 2 * (0 + 1) / 1 - 2 * 0 / 1 ∧ (1 : ℕ) < 2 ∧
    ent ((complex_grids 1 2 1)[0]?.getD []) 0 1 =
      some (-1 + ((2 * 0 / 1 + 0 : ℕ) : ℚ) * (2 * 1 / ((2 : ℕ) : ℚ)),
            -1 + ((1 : ℕ) : ℚ) * (2 * 1 / ((2 : ℕ) : ℚ))) :=
  ⟨by norm_num, by norm_num, by norm_num, by norm_num, by norm_num,
   by norm_num,
   complex_grids_entry 1 2 1 0 0 1 (by norm_num) (by norm_num) (by norm_num)
     (by norm_num) (by norm_num) (by norm_num)⟩

/-! ## The driver: parallel scatter/gather (source lines 44–60) -/

/-- Lift a partitioner band (finite complex values) into kernel states. -/
def liftBand (band : List (List Cx)) : List (List St) :=
  band.map (List.map some)

/-- One completion event of the worker pool: worker `i` finishes and its
result `f xs[i]` is stored in the table slot reserved for submission
index `i`. -/
def poolStep (f : α → β) (xs : List α) (tbl : List (Option β)) (i : ℕ) :
    List (Option β) :=
  match xs[i]? with
  | some a => tbl.set i (some (f a))
  | none => tbl

/-- The results table of the worker pool after the workers complete in the
arbitrary order `order` (a list of band indices).  This is the
order-preserving gather of `Pool.map` (source lines 57–58): a result's slot
depends only on its submission index, never on when its worker finished. -/
def poolTable (f : α → β) (xs : List α) (order : List ℕ) : List (Option β) :=
  order.foldl (poolStep f xs) (List.replicate xs.length none)

/-- Read out a fully filled results table in submission order. -/
def collectResults : List (Option β) → Option (List β)
  | [] => some []
  | none :: _ => none
  | some b :: rest => (collectResults rest).map (fun l => b :: l)

/-- Model of `Pool.map(f, xs)` with completion order `order`: fill the results table
as workers finish, then read it out in submission order. -/
def pool_map (f : α → β) (xs : List α) (order : List ℕ) : Option (List β) :=
  collectResults (poolTable f xs order)

/-- The driver pipeline (source lines 56–60): partition the plane, map the
kernel with bound `num_iter` and `c` over the bands on the pool (workers
completing in order `order`), concatenate the returned fractal bands. -/
def driver_fractal (extent : ℚ) (cells n_slices num_iter : ℕ) (c : Cx)
    (order : List ℕ) : Option (List (List ℕ)) :=
  (pool_map (fun grid => julia_set grid num_iter c)
    ((complex_grids extent cells n_slices).map liftBand) order).map
    List.flatten

theorem getElem_opt_some_lt {xs : List α} {j : ℕ} {a : α}
    (hj : xs[j]? = some a) : j < xs.length := by
  by_contra hge
  push_neg at hge
  rw [List.getElem?_eq_none hge] at hj
  exact absurd hj (by simp)

theorem poolTable_go (f : α → β) (xs : List α) :
    ∀ (order : List ℕ) (tbl : List (Option β)),
    tbl.length = xs.length →
    (∀ (j : ℕ) (a : α), xs[j]? = some a →
      tbl[j]? = some none ∨ tbl[j]? = some (some (f a))) →
    (order.foldl (poolStep f xs) tbl).length = xs.length ∧
    (∀ (j : ℕ) (a : α), xs[j]? = some a →
      (j ∈ order ∨ tbl[j]? = some (some (f a))) →
      (order.foldl (poolStep f xs) tbl)[j]? = some (some (f a))) := by
  intro order
  induction order with
  | nil =>
      intro tbl hlen hinv
      refine ⟨hlen, fun j a hj hc => ?_⟩
      rcases hc with hmem | htbl
      · simp at hmem
      · exact htbl
  | cons o rest ih =>
      intro tbl hlen hinv
      rw [List.foldl_cons]
      rcases ho : xs[o]? with _ | b
      · -- no band with index o: the table is unchanged this step
        have hstep : poolStep f xs tbl o = tbl := by
          unfold poolStep; rw [ho]
        rw [hstep]
        refine (ih tbl hlen hinv).imp id (fun hspec j a hj hc => ?_)
        refine hspec j a hj ?_
        rcases hc with hmem | htbl
        · rcases List.mem_cons.mp hmem with rfl | hmem
          · rw [hj] at ho; exact absurd ho (by simp)
          · exact Or.inl hmem
        · exact Or.inr htbl
      · -- worker o finishes: slot o is set to its result
        have hstep : poolStep f xs tbl o = tbl.set o (some (f b)) := by
          unfold poolStep; rw [ho]
        rw [hstep]
        have hoLt : o < xs.length := getElem_opt_some_lt ho
        have hlen' : (tbl.set o (some (f b))).length = xs.length := by
          rw [List.length_set]; exact hlen
        have hsetSelf : (tbl.set o (some (f b)))[o]? = some (some (f b)) := by
          rw [List.getElem?_set, if_pos rfl, if_pos (hlen ▸ hoLt)]
        have hinv' : ∀ (j : ℕ) (a : α), xs[j]? = some a →
            (tbl.set o (some (f b)))[j]? = some none ∨
            (tbl.set o (some (f b)))[j]? = some (some (f a)) := by
          intro j a hj
          by_cases hoj : o = j
          · subst hoj
            obtain rfl : b = a := by rw [ho] at hj; exact Option.some.inj hj
            exact Or.inr hsetSelf
          · rw [List.getElem?_set_ne hoj]
            exact hinv j a hj
        refine (ih _ hlen' hinv').imp id (fun hspec j a hj hc => ?_)
        refine hspec j a hj ?_
        rcases hc with hmem | htbl
        · rcases List.mem_cons.mp hmem with rfl | hmem
          · right
            obtain rfl : b = a := by rw [ho] at hj; exact Option.some.inj hj
            exact hsetSelf
          · exact Or.inl hmem
        · right
          by_cases hoj : o = j
          · subst hoj
            obtain rfl : b = a := by rw [ho] at hj; exact Option.some.inj hj
            exact hsetSelf
          · rw [List.getElem?_set_ne hoj]; exact htbl

theorem poolTable_spec (f : α → β) (xs : List α) (order : List ℕ)
    (hcov : ∀ i, i < xs.length → i ∈ order) :
    poolTable f xs order = (xs.map f).map some := by
  have hPT : poolTable f xs order =
      order.foldl (poolStep f xs) (List.replicate xs.length none) := rfl
  obtain ⟨hlen, hspec⟩ :=
    poolTable_go f xs order (List.replicate xs.length none) (by simp)
      (fun j a hj =>
        Or.inl (List.getElem?_replicate_of_lt (getElem_opt_some_lt hj)))
  apply List.ext_getElem?
  intro j
  rcases hj : xs[j]? with _ | a
  · -- j is past the end of both sides
    have hjlen : xs.length ≤ j := by
      by_contra hlt
      push_neg at hlt
      rw [List.getElem?_eq_getElem hlt] at hj
      exact absurd hj (by simp)
    rw [hPT, List.getElem?_eq_none (by omega),
      List.getElem?_eq_none (by simpa using hjlen)]
  · have hjLt : j < xs.length := getElem_opt_some_lt hj
    rw [hPT, hspec j a hj (Or.inl (hcov j hjLt)),
      List.getElem?_map, List.getElem?_map, hj]
    rfl

theorem collectResults_map_some (l : List β) :
    collectResults (l.map some) = some l := by
  induction l with
  | nil => rfl
  | cons b rest ih => simp [collectResults, ih]

theorem pool_map_eq (f : α → β) (xs : List α) (order : List ℕ)
    (hcov : ∀ i, i < xs.length → i ∈ order) :
    pool_map f xs order = some (xs.map f) := by
  unfold pool_map
  rw [poolTable_spec f xs order hcov, collectResults_map_some]

/-- C8: for any completion order in which every band index eventually
completes, the image assembled by the driver (parallel map of the bound
kernel over the bands, gathered by submission index, concatenated) equals
the image obtained by applying `julia_set` to each band sequentially in
slice-index order and concatenating: the result depends only on submission
order, never on worker completion order. -/
theorem driver_order_independent (extent : ℚ) (cells n_slices num_iter : ℕ)
    (c : Cx) (order : List ℕ) (hcov : ∀ i, i < n_slices → i ∈ order) :
    driver_fractal extent cells n_slices num_iter c order =
      some (((complex_grids extent cells n_slices).map
        (fun band => julia_set (liftBand band) num_iter c)).flatten) := by
  unfold driver_fractal
  rw [pool_map_eq]
  · rw [List.map_map]
    rfl
  · intro i hi
    apply hcov
    have hL : ((complex_grids extent cells n_slices).map liftBand).length =
        n_slices := by
      rw [List.length_map]
      unfold complex_grids
      rw [List.length_map, List.length_range]
    omega

/-- Witness for C8 at `extent = 1`, `n_cells = 2`, `n_slices = 2`,
`num_iter = 1`, `c = 0`, with the workers completing in the scrambled
order `[1, 0]`. -/
theorem driver_order_independent_witness :
    (∀ i, i < 2 → i ∈ [1, 0]) ∧
    driver_fractal 1 2 2 1 ((0 : ℚ), (0 : ℚ)) [1, 0] =
      some (((complex_grids 1 2 2).map
        (fun band => julia_set (liftBand band) 1 ((0 : ℚ), (0 : ℚ)))).flatten) :=
  ⟨by decide,
   driver_order_independent 1 2 2 1 ((0 : ℚ), (0 : ℚ)) [1, 0] (by decide)⟩

/-! ## Frame property of the kernel (source lines 29–42)

The Python statement `grid = grid ** 2 + c` does not write into the array
the caller passed: NumPy's `**` and `+` allocate a fresh array and the
assignment merely rebinds the function-local name `grid` to it.  The only
in-place write, `fractal[index] = fractal[index] + 1`, targets the locally
allocated accumulator.  To state this, the kernel is re-run against an
explicit heap of complex arrays: an array reference is an index into the
heap, `grid ** 2 + c` appends a fresh array, and the local name is rebound
to the new index. -/

/-- A heap of 2-D complex arrays; an array reference is an index. -/
abbrev GridHeap := List (List (List St))

/-- The kernel loop with explicit allocation: each iteration reads the
array the local name `grid` currently refers to, allocates a fresh array
holding `grid ** 2 + c`, rebinds the local name to it, and updates the
(heap-free, locally owned) `fractal` accumulator. -/
def juliaLoopHeap (c : Cx) : ℕ → GridHeap × ℕ × List (List ℕ) →
    GridHeap × ℕ × List (List ℕ)
  | 0, st => st
  | k + 1, (h, gref, frac) =>
      let g := h.getD gref []
      let gNew := g.map (List.map (stepz c))
      let frac2 := List.zipWith
        (List.zipWith (fun s x => if isFin s then x + 1 else x)) gNew frac
      juliaLoopHeap c k (h ++ [gNew], h.length, frac2)

/-- The call `julia_set(grid, num_iter, c)` against the heap: the grid argument is a
reference into the caller's heap; the call returns the final heap together
with the fractal array. -/
def julia_set_heap (h : GridHeap) (gref num_iter : ℕ) (c : Cx) :
    GridHeap × List (List ℕ) :=
  let fractal := (h.getD gref []).map (List.map (fun _ => (0 : ℕ)))
  ((juliaLoopHeap c num_iter (h, gref, fractal)).1,
   (juliaLoopHeap c num_iter (h, gref, fractal)).2.2)

theorem juliaLoopHeap_extends (c : Cx) :
    ∀ (k : ℕ) (h : GridHeap) (gref : ℕ) (frac : List (List ℕ)),
    ∃ ext, (juliaLoopHeap c k (h, gref, frac)).1 = h ++ ext := by
  intro k
  induction k with
  | zero =>
      intro h gref frac
      exact ⟨[], (List.append_nil h).symm⟩
  | succ k ih =>
      intro h gref frac
      obtain ⟨ext, hext⟩ := ih
        (h ++ [(h.getD gref []).map (List.map (stepz c))]) h.length
        (List.zipWith (List.zipWith (fun s x => if isFin s then x + 1 else x))
          ((h.getD gref []).map (List.map (stepz c))) frac)
      refine ⟨[(h.getD gref []).map (List.map (stepz c))] ++ ext, ?_⟩
      show (juliaLoopHeap c k _).1 = _
      rw [hext, List.append_assoc]

theorem juliaLoopHeap_fractal (c : Cx) :
    ∀ (k : ℕ) (h : GridHeap) (gref : ℕ) (frac : List (List ℕ)),
    (juliaLoopHeap c k (h, gref, frac)).2.2 =
      (juliaIter c k (h.getD gref [], frac)).2 := by
  intro k
  induction k with
  | zero => intro h gref frac; rfl
  | succ k ih =>
      intro h gref frac
      show (juliaLoopHeap c k _).2.2 = _
      rw [ih]
      have hread : (h ++ [(h.getD gref []).map (List.map (stepz c))]).getD
          h.length [] = (h.getD gref []).map (List.map (stepz c)) := by
        rw [List.getD_eq_getElem?_getD, List.getElem?_append_right (le_refl _)]
        simp
      rw [hread]
      rfl

/-- Refinement: the fractal array computed by the heap-level kernel is the
one computed by the pure kernel on the array the grid reference held. -/
theorem julia_set_heap_fractal (h : GridHeap) (gref n : ℕ) (c : Cx) :
    (julia_set_heap h gref n c).2 = julia_set (h.getD gref []) n c := by
  unfold julia_set_heap julia_set
  rw [juliaLoopHeap_fractal]

/-- C10: `julia_set` never modifies its input grid argument: every array
the caller's heap held before the call — in particular the grid argument
itself — holds exactly the same values after the call; the update
`z ← z² + c` only allocates fresh arrays and rebinds the local name. -/
theorem julia_set_heap_frame (h : GridHeap) (gref num_iter : ℕ) (c : Cx)
    (a : ℕ) (ha : a < h.length) :
    ((julia_set_heap h gref num_iter c).1)[a]? = h[a]? := by
  unfold julia_set_heap
  obtain ⟨ext, hext⟩ := juliaLoopHeap_extends c num_iter h gref
    ((h.getD gref []).map (List.map (fun _ => (0 : ℕ))))
  show ((juliaLoopHeap c num_iter _).1)[a]? = h[a]?
  rw [hext]
  exact List.getElem?_append_left ha

/-- Witness for C10: a one-array heap holding the grid `[[0]]`,
`num_iter = 1`. -/
theorem julia_set_heap_frame_witness :
    (0 : ℕ) < ([[[some ((0 : ℚ), (0 : ℚ))]]] : GridHeap).length ∧
    ((julia_set_heap [[[some ((0 : ℚ), (0 : ℚ))]]] 0 1 ((0 : ℚ), (0 : ℚ))).1)[0]? =
      ([[[some ((0 : ℚ), (0 : ℚ))]]] : GridHeap)[0]? :=
  ⟨by norm_num,
   julia_set_heap_frame [[[some ((0 : ℚ), (0 : ℚ))]]] 0 1 ((0 : ℚ), (0 : ℚ)) 0
     (by norm_num)⟩
